import Mathlib

/-!
# imageEnhancer: the numeric pipeline of `src/imageEnhancer.cpp`

A shallow embedding of the Gaussian kernel builder, the separable blur, the
unsharp mask, the luminance equaliser and the orchestrator.

Modelling conventions.

* `float` is idealised as exact arithmetic in a linearly ordered field `α`
  with a floor function (`ℚ` and `ℝ` are instances); rounding error is outside
  the model.  Decimal literals of the source (`0.299f`, `1e-6f`, ...) are the
  corresponding rationals.
* `std::exp` is a library function: it is taken as a parameter `ex : α → α`,
  and the theorems that need it assume only that it is positive (and, for the
  comparison with the 2-D convolution, that it turns sums into products).
* `std::vector<T>` is `List T`; `v[i]` reads with `List.getD v i 0` and
  `v[i] = x` writes with `List.set`.  `vector<T> v(n)` is `List.replicate n 0`.
* `int` dimensions and radii are `Nat` (they are non-negative in every call);
  loop offsets `i = -radius .. radius` and the clamped coordinates are `Int`,
  as in the source, and are converted to an index only after clamping.
  Products such as `w*h*3` are unbounded naturals: signed overflow is
  undefined in the source, so the model covers images whose sizes fit in `int`.
* `for` loops are left folds over the list of values of the loop variable, the
  loop body being the folded function and the mutated variables its state.
* Out-of-bounds accesses and zero divisors are undefined or meaningless in the
  source; the `...Checked` functions make them an explicit failure (`none`),
  and are proved to agree with the unchecked functions on valid input.
-/

namespace ImageEnhancer

variable {α : Type} [LinearOrderedField α]

/-! ## Data model -/

/-- The `Image` struct: width, height, channel count and the sample buffer. -/
structure Image (α : Type) where
  w : Nat
  h : Nat
  c : Nat
  data : List α

/-- The buffer holds exactly `w*h*3` samples. -/
def WellFormed (img : Image α) : Prop :=
  img.data.length = img.w * img.h * 3

/-- The image has at least one pixel. -/
def NonEmpty (img : Image α) : Prop :=
  0 < img.w ∧ 0 < img.h

/-- Every sample of the buffer lies in the closed unit interval. -/
def InRange (data : List α) : Prop :=
  ∀ v ∈ data, 0 ≤ v ∧ v ≤ 1

/-! ## Scalar helpers -/

/-- Source function `clamp01`: `v < 0 ? 0 : (v > 1 ? 1 : v)`. -/
def clamp01 (v : α) : α :=
  if v < 0 then 0 else (if v > 1 then 1 else v)

/-- Source function `std::lround`: round to nearest, halfway cases away from zero. -/
def lround [FloorRing α] (x : α) : Int :=
  if 0 ≤ x then ⌊x + 1 / 2⌋ else ⌈x - 1 / 2⌉

/-- Source function `rgb2y`: the fixed luma weighting. -/
def rgb2y (r g b : α) : α :=
  0.299 * r + 0.587 * g + 0.114 * b

/-- The values of the loop variable of `for (int i = -radius; i <= radius; ++i)`. -/
def offsets (radius : Nat) : List Int :=
  (List.range (2 * radius + 1)).map (fun (j : Nat) => (j : Int) - (radius : Int))

/-! ## Kernel builder -/

/-- First loop of `gaussianKernel1D`: fills `k` and accumulates `sum`. -/
def kernelFill (ex : α → α) (radius : Nat) (sigma : α) : List α × α :=
  let size := 2 * radius + 1
  let inv2s2 : α := 1 / (2 * sigma * sigma)
  (offsets radius).foldl
    (fun (st : List α × α) i =>
      let v := ex (((-i * i : Int) : α) * inv2s2)
      (st.1.set (i + (radius : Int)).toNat v, st.2 + v))
    (List.replicate size 0, 0)

/-- Source function `gaussianKernel1D`: the filled kernel with every tap divided by `sum`. -/
def gaussianKernel1D (ex : α → α) (radius : Nat) (sigma : α) : List α :=
  let size := 2 * radius + 1
  let ks := kernelFill ex radius sigma
  (List.range size).foldl (fun k i => k.set i (k.getD i 0 / ks.2)) ks.1

/-! ## Separable convolution -/

/-- The clamp-to-edge coordinate: `xx = x + i; if (xx < 0) xx = 0;
if (xx >= n) xx = n - 1`. -/
def clampCoord (x : Nat) (i : Int) (n : Nat) : Int :=
  let xx : Int := (x : Int) + i
  let xx : Int := if xx < 0 then 0 else xx
  if xx ≥ (n : Int) then (n : Int) - 1 else xx

/-- The horizontal pass of `gaussianBlurRGB`, writing into `tmp`. -/
def blurHorizontal (src : Image α) (k : List α) (radius : Nat) (tmp : List α) : List α :=
  (List.range src.h).foldl (fun tmp (y : Nat) =>
    (List.range src.w).foldl (fun tmp (x : Nat) =>
      (List.range 3).foldl (fun tmp (ch : Nat) =>
        let acc := (offsets radius).foldl (fun acc i =>
          let xx := clampCoord x i src.w
          acc + src.data.getD (((y : Int) * src.w + xx) * 3 + ch).toNat 0
            * k.getD (i + (radius : Int)).toNat 0) 0
        tmp.set ((y * src.w + x) * 3 + ch) acc) tmp) tmp) tmp

/-- The vertical pass of `gaussianBlurRGB`, reading `tmp` and writing into
`dst.data`. -/
def blurVertical (src : Image α) (k : List α) (radius : Nat) (tmp : List α)
    (dst : List α) : List α :=
  (List.range src.h).foldl (fun dst (y : Nat) =>
    (List.range src.w).foldl (fun dst (x : Nat) =>
      (List.range 3).foldl (fun dst (ch : Nat) =>
        let acc := (offsets radius).foldl (fun acc i =>
          let yy := clampCoord y i src.h
          acc + tmp.getD ((yy * src.w + (x : Int)) * 3 + ch).toNat 0
            * k.getD (i + (radius : Int)).toNat 0) 0
        dst.set ((y * src.w + x) * 3 + ch) acc) dst) dst) dst

/-- Source function `gaussianBlurRGB`: returns the destination image (`dst = src`, then both
passes). -/
def gaussianBlurRGB (ex : α → α) (src : Image α) (radius : Nat) (sigma : α) : Image α :=
  let dst := src
  let k := gaussianKernel1D ex radius sigma
  let tmp := List.replicate (src.w * src.h * 3) (0 : α)
  let tmp := blurHorizontal src k radius tmp
  { dst with data := blurVertical src k radius tmp dst.data }

/-! ## Unsharp mask -/

/-- Source function `unsharpMask`: returns the image left in `img`. -/
def unsharpMask (ex : α → α) (img : Image α) (sigma : α) (radius : Nat) (amount : α) :
    Image α :=
  let blurred := gaussianBlurRGB ex img radius sigma
  let N := img.w * img.h * 3
  { img with data := (List.range N).foldl (fun data i =>
      let detail := data.getD i 0 - blurred.data.getD i 0
      data.set i (clamp01 (data.getD i 0 + amount * detail))) img.data }

/-! ## Luminance equaliser -/

/-- The histogram bin of a luma value: `(int)std::lround(clamp01(y) * 255.0f)`. -/
def lumaBin [FloorRing α] (y : α) : Nat :=
  (lround (clamp01 y * 255)).toNat

/-- First loop of `equalizeLuminance`: the pair `(hist, Y)`. -/
def lumaHistogram [FloorRing α] (img : Image α) : List Nat × List α :=
  (List.range (img.w * img.h)).foldl
    (fun (st : List Nat × List α) i =>
      let r := img.data.getD (i * 3 + 0) 0
      let g := img.data.getD (i * 3 + 1) 0
      let b := img.data.getD (i * 3 + 2) 0
      let y := rgb2y r g b
      let bin := lumaBin y
      (st.1.set bin (st.1.getD bin 0 + 1), st.2.set i y))
    (List.replicate 256 0, List.replicate (img.w * img.h) 0)

/-- Second loop of `equalizeLuminance`: the pair `(cdf, cum)`. -/
def cdfLoop (hist : List Nat) (total : Nat) (bins : Nat) : List α × Nat :=
  (List.range bins).foldl
    (fun (st : List α × Nat) i =>
      let cum := st.2 + hist.getD i 0
      (st.1.set i ((cum : α) / (total : α)), cum))
    (List.replicate bins 0, 0)

/-- The `cdf` array built inside `equalizeLuminance`. -/
def equalizeCdf [FloorRing α] (img : Image α) : List α :=
  (cdfLoop (lumaHistogram img).1 (img.w * img.h) 256).1

/-- The scale factor of one pixel: `yNew / ((Y[i] > eps) ? Y[i] : eps)`. -/
def lumaScale [FloorRing α] (cdf : List α) (y : α) : α :=
  let eps : α := 1e-6
  let yNew := cdf.getD (lumaBin y) 0
  yNew / (if y > eps then y else eps)

/-- Third loop of `equalizeLuminance`: rescales the three channels of every
pixel in place. -/
def remapLoop [FloorRing α] (n : Nat) (Y cdf : List α) (data : List α) : List α :=
  (List.range n).foldl (fun data i =>
    let scale := lumaScale cdf (Y.getD i 0)
    let r := data.getD (i * 3 + 0) 0 * scale
    let g := data.getD (i * 3 + 1) 0 * scale
    let b := data.getD (i * 3 + 2) 0 * scale
    ((data.set (i * 3 + 0) (clamp01 r)).set (i * 3 + 1) (clamp01 g)).set
      (i * 3 + 2) (clamp01 b)) data

/-- Source function `equalizeLuminance`: returns the image left in `img`. -/
def equalizeLuminance [FloorRing α] (img : Image α) : Image α :=
  let hy := lumaHistogram img
  let cdf : List α := equalizeCdf img
  { img with data := remapLoop (img.w * img.h) hy.2 cdf img.data }

/-! ## Orchestrator -/

/-- Source function `enhanceFace`: the fixed three-stage recipe on a copy of the input. -/
def enhanceFace [FloorRing α] (ex : α → α) (input : Image α) : Image α :=
  let work := input
  let work := unsharpMask ex work 1.3 2 1.1
  let work := equalizeLuminance work
  let work := unsharpMask ex work 0.9 1 0.4
  work

/-! ## Closed forms and invariants used by the proofs -/

/-- The buffer `a` agrees with `V` below `m` and with the initial buffer `a0`
from `m` on. -/
def Pref {β : Type} (d : β) (a0 : List β) (V : Nat → β) (m : Nat) (a : List β) : Prop :=
  a.length = a0.length ∧ ∀ p, a.getD p d = if p < m then V p else a0.getD p d

/-- The unnormalised tap at offset `i`: `exp(-i*i * inv2s2)`. -/
def rawTap (ex : α → α) (sigma : α) (i : Int) : α :=
  ex (((-i * i : Int) : α) * (1 / (2 * sigma * sigma)))

/-- The value of `sum` after the first loop of `gaussianKernel1D`. -/
def tapSum (ex : α → α) (radius : Nat) (sigma : α) : α :=
  ((offsets radius).map (rawTap ex sigma)).sum

/-- The accumulator of the horizontal pass at pixel `(x, y)`, channel `ch`. -/
def hAcc (src : Image α) (k : List α) (radius : Nat) (y x ch : Nat) : α :=
  (offsets radius).foldl (fun acc i =>
    acc + src.data.getD (((y : Int) * src.w + clampCoord x i src.w) * 3 + ch).toNat 0
      * k.getD (i + (radius : Int)).toNat 0) 0

/-- The accumulator of the vertical pass at pixel `(x, y)`, channel `ch`. -/
def vAcc (src : Image α) (k : List α) (radius : Nat) (tmp : List α) (y x ch : Nat) : α :=
  (offsets radius).foldl (fun acc i =>
    acc + tmp.getD ((clampCoord y i src.h * src.w + (x : Int)) * 3 + ch).toNat 0
      * k.getD (i + (radius : Int)).toNat 0) 0

/-- The luma `Y[i]` of pixel `i` as computed by the first loop of
`equalizeLuminance`. -/
def pixelLuma (img : Image α) (i : Nat) : α :=
  rgb2y (img.data.getD (i * 3 + 0) 0) (img.data.getD (i * 3 + 1) 0)
    (img.data.getD (i * 3 + 2) 0)

/-! ## Sample inputs -/

/-- A positive stand-in for `exp` on the rationals. -/
def exQ (x : ℚ) : ℚ := 1 / (1 + x * x)

/-- A 2x1 image with samples in `[0,1]`. -/
def img2x1 : Image ℚ := ⟨2, 1, 3, [0, 1 / 2, 1, 1, 0, 1 / 4]⟩

/-- A 1x1 image. -/
def img1x1 : Image ℚ := ⟨1, 1, 3, [1 / 4, 1 / 2, 3 / 4]⟩

/-- A 2x1 image whose first pixel is gray. -/
def imgGray : Image ℚ := ⟨2, 1, 3, [1 / 2, 1 / 2, 1 / 2, 1 / 4, 1 / 2, 3 / 4]⟩

/-- The image with every pixel equal to the gray `(v, v, v)`. -/
def uniformGray (w h : Nat) (v : α) : Image α :=
  ⟨w, h, 3, List.replicate (w * h * 3) v⟩

/-- The 4x4 image whose 16 pixels are all `(0.2, 0.2, 0.2)`. -/
def flat4x4 : Image ℚ := uniformGray 4 4 0.2

/-- The 2x2 image whose four pixels are all `(0.5, 0.5, 0.5)`. -/
def gray2x2 : Image ℚ := uniformGray 2 2 0.5

/-- Image `b` has the dimensions and channel count of `a` and a buffer of
`a.w * a.h * 3` samples. -/
def SameShape (a b : Image α) : Prop :=
  b.w = a.w ∧ b.h = a.h ∧ b.c = a.c ∧ b.data.length = a.w * a.h * 3

/-- A 2x1 image whose first pixel is exactly black. -/
def imgBlack : Image ℚ := ⟨2, 1, 3, [0, 0, 0, 1 / 2, 1 / 4, 1]⟩

/-- A 1x1 image whose only pixel is the saturated colour `(1, 0.5, 0.5)`. -/
def imgRed : Image ℚ := ⟨1, 1, 3, [1, 1 / 2, 1 / 2]⟩

/-- A 2x1 image with a dark pixel `(0.2, 0.1, 0.1)` and a white pixel. -/
def imgDim : Image ℚ := ⟨2, 1, 3, [1 / 5, 1 / 10, 1 / 10, 1, 1, 1]⟩

/-- The spec's `clamp(v, 0, n-1)`: the nearest valid coordinate. -/
def clampEdge (v : Int) (n : Nat) : Int :=
  max 0 (min v ((n : Int) - 1))

/-- The spec's 2-D Gaussian weight `G(i, j)`: `exp(-(i²+j²)/(2·sigma²))` divided by
the sum of that expression over the whole `(2·radius+1)²` window. -/
def gauss2DWeight (ex : α → α) (radius : Nat) (sigma : α) (i j : Int) : α :=
  ex (-((i : α) ^ 2 + (j : α) ^ 2) / (2 * sigma ^ 2))
    / ∑ a ∈ Finset.Icc (-(radius : Int)) (radius : Int),
        ∑ b ∈ Finset.Icc (-(radius : Int)) (radius : Int),
          ex (-((a : α) ^ 2 + (b : α) ^ 2) / (2 * sigma ^ 2))

/-- The spec's full 2-D convolution with clamp-to-edge indexing at pixel
`(x, y)`, channel `ch`: the sum over `i, j` in `[-radius, radius]` of
`G(i,j) * src[clamp(y+j, 0, h-1), clamp(x+i, 0, w-1), ch]`. -/
def gaussian2D (ex : α → α) (src : Image α) (radius : Nat) (sigma : α) (y x ch : Nat) : α :=
  ∑ i ∈ Finset.Icc (-(radius : Int)) (radius : Int),
    ∑ j ∈ Finset.Icc (-(radius : Int)) (radius : Int),
      gauss2DWeight ex radius sigma i j
        * src.data.getD
            ((clampEdge ((y : Int) + j) src.h * (src.w : Int)
              + clampEdge ((x : Int) + i) src.w) * 3 + (ch : Int)).toNat 0

/-- The two images of one call `gaussianBlurRGB(src, dst, radius, sigma)`. -/
structure BlurFrame (α : Type) where
  src : Image α
  dst : Image α

/-- The call `gaussianBlurRGB(src, dst, radius, sigma)` on its frame: `dst = src`,
then the two passes write `tmp` and `dst.data`. -/
def gaussianBlurRGBRun (ex : α → α) (f : BlurFrame α) (radius : Nat) (sigma : α) :
    BlurFrame α :=
  let f : BlurFrame α := { f with dst := f.src }
  let k := gaussianKernel1D ex radius sigma
  let tmp := List.replicate (f.src.w * f.src.h * 3) (0 : α)
  let tmp := blurHorizontal f.src k radius tmp
  { f with dst := { f.dst with data := blurVertical f.src k radius tmp f.dst.data } }

section Loops
variable {β : Type} {σ : Type}

theorem getD_set_same (l : List β) (i : Nat) (v d : β) (h : i < l.length) :
    (l.set i v).getD i d = v := by
  simp [List.getD_eq_getElem?_getD, List.getElem?_set, h]

theorem getD_set_other (l : List β) (i j : Nat) (v d : β) (h : i ≠ j) :
    (l.set i v).getD j d = l.getD j d := by
  simp [List.getD_eq_getElem?_getD, List.getElem?_set, h]

/-- Loop rule: an invariant indexed by the number of completed iterations. -/
theorem foldl_range_inv (P : Nat → σ → Prop) (step : σ → Nat → σ) (s0 : σ) (n : Nat)
    (h0 : P 0 s0) (hstep : ∀ i, i < n → ∀ s, P i s → P (i + 1) (step s i)) :
    P n ((List.range n).foldl step s0) := by
  induction n with
  | zero => simpa using h0
  | succ m ih =>
    rw [List.range_succ, List.foldl_append]
    simp only [List.foldl_cons, List.foldl_nil]
    exact hstep m (Nat.lt_succ_self m) _
      (ih (fun i hi s hs => hstep i (Nat.lt_succ_of_lt hi) s hs))

theorem Pref.init (d : β) (a0 : List β) (V : Nat → β) : Pref d a0 V 0 a0 :=
  ⟨rfl, fun p => by simp⟩

theorem Pref.step {d : β} {a0 : List β} {V : Nat → β} {m : Nat} {a : List β}
    (h : Pref d a0 V m a) (hm : m < a0.length) (v : β) (hv : v = V m) :
    Pref d a0 V (m + 1) (a.set m v) := by
  refine ⟨by simpa using h.1, fun p => ?_⟩
  by_cases hp : m = p
  · subst hp
    rw [getD_set_same _ _ _ _ (h.1 ▸ hm), hv]; simp
  · rw [getD_set_other _ _ _ _ _ hp, h.2 p]
    by_cases h1 : p < m
    · simp [h1, Nat.lt_succ_of_lt h1]
    · have : ¬ p < m + 1 := by omega
      simp [h1, this]

theorem Pref.eq_of_full {d : β} {a0 : List β} {V : Nat → β} {m : Nat} {a : List β}
    (h : Pref d a0 V m a) (hm : a0.length ≤ m) :
    a = (List.range a0.length).map V := by
  apply List.ext_getElem
  · simp [h.1]
  · intro i h1 h2
    have := h.2 i
    rw [List.getD_eq_getElem _ _ h1] at this
    have hi : i < a0.length := h.1 ▸ h1
    simp [this, lt_of_lt_of_le hi hm]

theorem foldl_add_eq_sum {γ : Type} [AddCommMonoid β] (f : γ → β) (l : List γ) (c : β) :
    l.foldl (fun acc i => acc + f i) c = c + (l.map f).sum := by
  induction l generalizing c with
  | nil => simp
  | cons x xs ih => simp [ih, add_assoc]

theorem map_getD_range (d : β) (l : List β) :
    (List.range l.length).map (fun j => l.getD j d) = l := by
  apply List.ext_getElem
  · simp
  · intro i h1 h2
    simp [List.getD_eq_getElem?_getD, List.getElem?_eq_getElem h2]

end Loops

/-! ## The kernel in closed form -/

theorem offsets_length (radius : Nat) : (offsets radius).length = 2 * radius + 1 := by
  simp [offsets]

theorem offset_index (j radius : Nat) : ((j : Int) - (radius : Int) + (radius : Int)).toNat = j := by
  simp

theorem kernelFill_eq (ex : α → α) (radius : Nat) (sigma : α) :
    kernelFill ex radius sigma
      = ((offsets radius).map (rawTap ex sigma), tapSum ex radius sigma) := by
  unfold kernelFill tapSum offsets
  rw [List.foldl_map, List.map_map]
  set G : Nat → α := fun j => rawTap ex sigma ((j : Int) - (radius : Int)) with hG
  set k0 : List α := List.replicate (2 * radius + 1) 0 with hk0
  have hlen : k0.length = 2 * radius + 1 := by simp [hk0]
  have key := foldl_range_inv
    (fun n (st : List α × α) => Pref 0 k0 G n st.1 ∧ st.2 = ((List.range n).map G).sum)
    (fun (st : List α × α) (j : Nat) =>
      (st.1.set ((j : Int) - (radius : Int) + (radius : Int)).toNat
        (ex ((((-((j : Int) - (radius : Int)) * ((j : Int) - (radius : Int)) : Int)) : α)
          * (1 / (2 * sigma * sigma)))),
       st.2 + ex ((((-((j : Int) - (radius : Int)) * ((j : Int) - (radius : Int)) : Int)) : α)
          * (1 / (2 * sigma * sigma)))))
    (k0, 0) (2 * radius + 1) ⟨Pref.init 0 k0 G, by simp⟩
    (by
      intro i hi st hst
      refine ⟨?_, ?_⟩
      · show Pref 0 k0 G (i + 1) (st.1.set ((i : Int) - (radius : Int) + (radius : Int)).toNat _)
        rw [offset_index]
        exact hst.1.step (by omega) _ rfl
      · simp only [hst.2, List.range_succ, List.map_append, List.sum_append, List.map_cons,
          List.map_nil, List.sum_cons, List.sum_nil, add_zero]
        rfl)
  have h1 := key.1.eq_of_full (le_of_eq hlen)
  rw [hlen] at h1
  exact Prod.ext h1 key.2

theorem gaussianKernel1D_eq (ex : α → α) (radius : Nat) (sigma : α) :
    gaussianKernel1D ex radius sigma
      = (offsets radius).map (fun i => rawTap ex sigma i / tapSum ex radius sigma) := by
  unfold gaussianKernel1D
  simp only [kernelFill_eq]
  set k0 : List α := (offsets radius).map (rawTap ex sigma) with hk0
  have hlen : k0.length = 2 * radius + 1 := by simp [hk0, offsets_length]
  have key := foldl_range_inv
    (fun n (k : List α) => Pref 0 k0 (fun j => k0.getD j 0 / tapSum ex radius sigma) n k)
    (fun (k : List α) (i : Nat) => k.set i (k.getD i 0 / tapSum ex radius sigma))
    k0 (2 * radius + 1) (Pref.init 0 k0 _)
    (by
      intro i hi k hk
      refine hk.step (by omega) _ ?_
      rw [hk.2 i]; simp)
  rw [key.eq_of_full (le_of_eq hlen)]
  have h2 : (List.range k0.length).map (fun j => k0.getD j 0 / tapSum ex radius sigma)
      = ((List.range k0.length).map (fun j => k0.getD j 0)).map
          (fun v => v / tapSum ex radius sigma) := by
    rw [List.map_map]; rfl
  rw [h2, map_getD_range, hk0, List.map_map]
  rfl

/-! ## Raster loops -/

theorem pixel_lt {w h x y : Nat} (hx : x < w) (hy : y < h) : y * w + x < w * h := by
  calc y * w + x < y * w + w := by omega
    _ = (y + 1) * w := by ring
    _ ≤ h * w := Nat.mul_le_mul_right w hy
    _ = w * h := Nat.mul_comm h w

theorem sample_lt {w h x y ch : Nat} (hx : x < w) (hy : y < h) (hc : ch < 3) :
    (y * w + x) * 3 + ch < w * h * 3 := by
  have := pixel_lt hx hy
  omega

theorem sample_row {w x y ch : Nat} (hx : x < w) (hc : ch < 3) :
    ((y * w + x) * 3 + ch) / 3 / w = y := by
  have h1 : ((y * w + x) * 3 + ch) / 3 = y * w + x := by omega
  rw [h1, Nat.add_comm, Nat.add_mul_div_right _ _ (by omega : 0 < w), Nat.div_eq_of_lt hx]
  simp

theorem sample_col {w x y ch : Nat} (hx : x < w) (hc : ch < 3) :
    ((y * w + x) * 3 + ch) / 3 % w = x := by
  have h1 : ((y * w + x) * 3 + ch) / 3 = y * w + x := by omega
  rw [h1, Nat.add_comm, Nat.add_mul_mod_self_right, Nat.mod_eq_of_lt hx]

theorem sample_chan {w x y ch : Nat} (hc : ch < 3) :
    ((y * w + x) * 3 + ch) % 3 = ch := by
  omega

/-- The three nested loops over `y`, `x`, `ch` that store `F y x ch` at index
`(y*w + x)*3 + ch` overwrite the whole buffer. -/
theorem raster_fill {β : Type} (d : β) (w h : Nat) (F : Nat → Nat → Nat → β) (a0 : List β)
    (hlen : a0.length = w * h * 3) :
    (List.range h).foldl (fun a (y : Nat) =>
      (List.range w).foldl (fun a (x : Nat) =>
        (List.range 3).foldl (fun a (ch : Nat) =>
          a.set ((y * w + x) * 3 + ch) (F y x ch)) a) a) a0
      = (List.range (w * h * 3)).map (fun p => F (p / 3 / w) (p / 3 % w) (p % 3)) := by
  set V : Nat → β := fun p => F (p / 3 / w) (p / 3 % w) (p % 3) with hV
  have key := foldl_range_inv (fun y (a : List β) => Pref d a0 V ((y * w + 0) * 3) a)
    (fun a (y : Nat) =>
      (List.range w).foldl (fun a (x : Nat) =>
        (List.range 3).foldl (fun a (ch : Nat) =>
          a.set ((y * w + x) * 3 + ch) (F y x ch)) a) a)
    a0 h (by simpa using Pref.init d a0 V)
    (by
      intro y hy a ha
      have hrow := foldl_range_inv (fun x (a : List β) => Pref d a0 V ((y * w + x) * 3 + 0) a)
        (fun a (x : Nat) =>
          (List.range 3).foldl (fun a (ch : Nat) =>
            a.set ((y * w + x) * 3 + ch) (F y x ch)) a)
        a w ha
        (by
          intro x hx a1 ha1
          have hpix := foldl_range_inv
            (fun ch (a : List β) => Pref d a0 V ((y * w + x) * 3 + ch) a)
            (fun a (ch : Nat) => a.set ((y * w + x) * 3 + ch) (F y x ch))
            a1 3 ha1
            (by
              intro ch hc a2 ha2
              refine ha2.step (by rw [hlen]; exact sample_lt hx hy hc) _ ?_
              simp only [hV, sample_row hx hc, sample_col hx hc, sample_chan hc])
          have e : (y * w + x) * 3 + 3 = (y * w + (x + 1)) * 3 + 0 := by ring
          rw [← e]; exact hpix)
      have e : (y * w + w) * 3 + 0 = ((y + 1) * w + 0) * 3 := by ring
      rw [← e]; exact hrow)
  have hfull := key.eq_of_full (by rw [hlen]; exact le_of_eq (by ring))
  rw [hlen] at hfull
  exact hfull

/-! ## Kernel facts -/

theorem getD_inRange (l : List α) (h : InRange l) (j : Nat) :
    0 ≤ l.getD j 0 ∧ l.getD j 0 ≤ 1 := by
  by_cases hj : j < l.length
  · rw [List.getD_eq_getElem _ _ hj]
    exact h _ (List.getElem_mem hj)
  · rw [List.getD_eq_default _ _ (by omega)]
    exact ⟨le_refl 0, zero_le_one⟩

theorem blurHorizontal_eq (src : Image α) (k : List α) (radius : Nat) (tmp : List α)
    (hlen : tmp.length = src.w * src.h * 3) :
    blurHorizontal src k radius tmp
      = (List.range (src.w * src.h * 3)).map
          (fun p => hAcc src k radius (p / 3 / src.w) (p / 3 % src.w) (p % 3)) :=
  raster_fill 0 src.w src.h (hAcc src k radius) tmp hlen

theorem blurVertical_eq (src : Image α) (k : List α) (radius : Nat) (tmp dst : List α)
    (hlen : dst.length = src.w * src.h * 3) :
    blurVertical src k radius tmp dst
      = (List.range (src.w * src.h * 3)).map
          (fun p => vAcc src k radius tmp (p / 3 / src.w) (p / 3 % src.w) (p % 3)) :=
  raster_fill 0 src.w src.h (vAcc src k radius tmp) dst hlen

theorem gaussianBlurRGB_data (ex : α → α) (src : Image α) (radius : Nat) (sigma : α)
    (hwf : WellFormed src) :
    (gaussianBlurRGB ex src radius sigma).data
      = (List.range (src.w * src.h * 3)).map (fun p =>
          vAcc src (gaussianKernel1D ex radius sigma) radius
            ((List.range (src.w * src.h * 3)).map (fun q =>
              hAcc src (gaussianKernel1D ex radius sigma) radius
                (q / 3 / src.w) (q / 3 % src.w) (q % 3)))
            (p / 3 / src.w) (p / 3 % src.w) (p % 3)) := by
  unfold gaussianBlurRGB
  simp only
  rw [blurVertical_eq _ _ _ _ _ hwf, blurHorizontal_eq _ _ _ _ (by simp)]

theorem index_cast (y w x ch : Nat) :
    (((y : Int) * (w : Int) + (x : Int)) * 3 + (ch : Int)).toNat = (y * w + x) * 3 + ch := by
  have : ((y : Int) * (w : Int) + (x : Int)) * 3 + (ch : Int)
      = (((y * w + x) * 3 + ch : Nat) : Int) := by push_cast; ring
  rw [this, Int.toNat_natCast]

/-! ## Clamping -/

theorem clamp01_mem (v : α) : 0 ≤ clamp01 v ∧ clamp01 v ≤ 1 := by
  unfold clamp01
  split_ifs with h1 h2
  · exact ⟨le_refl 0, zero_le_one⟩
  · exact ⟨zero_le_one, le_refl 1⟩
  · exact ⟨not_lt.1 h1, not_lt.1 h2⟩

theorem clamp01_id {v : α} (h0 : 0 ≤ v) (h1 : v ≤ 1) : clamp01 v = v := by
  unfold clamp01
  rw [if_neg (not_lt.2 h0), if_neg (not_lt.2 h1)]

/-! ## The unsharp mask in closed form -/

theorem unsharpMask_data (ex : α → α) (img : Image α) (sigma : α) (radius : Nat)
    (amount : α) (hwf : WellFormed img) :
    (unsharpMask ex img sigma radius amount).data
      = (List.range (img.w * img.h * 3)).map (fun i =>
          clamp01 (img.data.getD i 0 + amount
            * (img.data.getD i 0 - (gaussianBlurRGB ex img radius sigma).data.getD i 0))) := by
  unfold unsharpMask
  simp only
  have hlen : img.data.length = img.w * img.h * 3 := hwf
  have key := foldl_range_inv
    (fun n (a : List α) => Pref 0 img.data (fun i =>
      clamp01 (img.data.getD i 0 + amount
        * (img.data.getD i 0 - (gaussianBlurRGB ex img radius sigma).data.getD i 0))) n a)
    (fun (data : List α) (i : Nat) =>
      data.set i (clamp01 (data.getD i 0 + amount
        * (data.getD i 0 - (gaussianBlurRGB ex img radius sigma).data.getD i 0))))
    img.data (img.w * img.h * 3) (Pref.init 0 img.data _)
    (by
      intro i hi a ha
      refine ha.step (by omega) _ ?_
      rw [ha.2 i]; simp)
  have hfull := key.eq_of_full (le_of_eq hlen)
  rw [hlen] at hfull
  exact hfull

theorem lumaBin_lt [FloorRing α] (y : α) : lumaBin y < 256 := by
  unfold lumaBin lround
  obtain ⟨h0, h1⟩ := clamp01_mem y
  have hx0 : 0 ≤ clamp01 y * 255 := mul_nonneg h0 (by norm_num)
  have hx1 : clamp01 y * 255 ≤ 255 := by
    calc clamp01 y * 255 ≤ 1 * 255 := mul_le_mul_of_nonneg_right h1 (by norm_num)
      _ = 255 := one_mul _
  rw [if_pos hx0]
  have hf0 : 0 ≤ ⌊clamp01 y * 255 + 1 / 2⌋ := Int.floor_nonneg.2 (by linarith)
  have hf1 : ⌊clamp01 y * 255 + 1 / 2⌋ < 256 := by
    apply Int.floor_lt.2
    push_cast
    linarith
  omega

theorem getD_replicate_zero {γ : Type} [Zero γ] (n b : Nat) :
    (List.replicate n (0 : γ)).getD b 0 = 0 := by
  by_cases h : b < n
  · rw [List.getD_eq_getElem _ _ (by simpa using h), List.getElem_replicate]
  · rw [List.getD_eq_default _ _ (by simpa using h)]

theorem sum_set_incr (l : List Nat) (b : Nat) (hb : b < l.length) :
    (l.set b (l.getD b 0 + 1)).sum = l.sum + 1 := by
  induction l generalizing b with
  | nil => simp at hb
  | cons x xs ih =>
    cases b with
    | zero => simp; omega
    | succ n =>
      have hn : n < xs.length := by simpa using hb
      have := ih n hn
      simp only [List.set_cons_succ, List.sum_cons, List.getD_cons_succ] at this ⊢
      omega

theorem getD_set_incr (l : List Nat) (b j : Nat) (hb : b < l.length) :
    (l.set b (l.getD b 0 + 1)).getD j 0 = l.getD j 0 + (if b = j then 1 else 0) := by
  by_cases h : b = j
  · subst h
    rw [getD_set_same _ _ _ _ hb]; simp
  · rw [getD_set_other _ _ _ _ _ h]; simp [h]

/-- The state `(hist, Y)` left by the first loop of `equalizeLuminance`. -/
theorem lumaHistogram_spec [FloorRing α] (img : Image α) :
    (lumaHistogram img).1.length = 256
      ∧ (lumaHistogram img).1.sum = img.w * img.h
      ∧ (∀ b, (lumaHistogram img).1.getD b 0
          = (List.range (img.w * img.h)).countP (fun j => lumaBin (pixelLuma img j) = b))
      ∧ (lumaHistogram img).2 = (List.range (img.w * img.h)).map (pixelLuma img) := by
  set Y0 : List α := List.replicate (img.w * img.h) 0 with hY0
  have key := foldl_range_inv
    (fun n (st : List Nat × List α) =>
      st.1.length = 256 ∧ st.1.sum = n
        ∧ (∀ b, st.1.getD b 0
            = (List.range n).countP (fun j => lumaBin (pixelLuma img j) = b))
        ∧ Pref 0 Y0 (pixelLuma img) n st.2)
    (fun (st : List Nat × List α) (i : Nat) =>
      (st.1.set (lumaBin (pixelLuma img i)) (st.1.getD (lumaBin (pixelLuma img i)) 0 + 1),
        st.2.set i (pixelLuma img i)))
    (List.replicate 256 0, Y0) (img.w * img.h)
    ⟨List.length_replicate _ _, by simp only [List.sum_replicate, smul_zero],
      by intro b; rw [getD_replicate_zero]; rfl, Pref.init 0 Y0 _⟩
    (by
      intro i hi st hst
      obtain ⟨h1, h2, h3, h4⟩ := hst
      have hb : lumaBin (pixelLuma img i) < st.1.length := by
        rw [h1]; exact lumaBin_lt _
      refine ⟨by rw [List.length_set]; exact h1, ?_, ?_,
        h4.step (by rw [hY0, List.length_replicate]; exact hi) _ rfl⟩
      · rw [sum_set_incr _ _ hb, h2]
      · intro b
        rw [getD_set_incr _ _ _ hb, h3 b, List.range_succ, List.countP_append]
        simp [List.countP_cons])
  obtain ⟨h1, h2, h3, h4⟩ := key
  refine ⟨h1, h2, h3, ?_⟩
  have hfull := h4.eq_of_full (le_of_eq (by rw [hY0, List.length_replicate]))
  rw [hY0, List.length_replicate] at hfull
  exact hfull

/-! ## The cumulative distribution -/

theorem sum_take_succ (l : List Nat) (n : Nat) :
    (l.take (n + 1)).sum = (l.take n).sum + l.getD n 0 := by
  induction l generalizing n with
  | nil => simp
  | cons x xs ih =>
    cases n with
    | zero => simp
    | succ m =>
      have := ih m
      simp only [List.take_succ_cons, List.sum_cons, List.getD_cons_succ] at this ⊢
      omega

/-- The state `(cdf, cum)` left by the second loop of `equalizeLuminance`. -/
theorem cdfLoop_spec (hist : List Nat) (total bins : Nat) :
    (cdfLoop hist total bins : List α × Nat).1
        = (List.range bins).map
            (fun i => (((hist.take (i + 1)).sum : Nat) : α) / (total : α))
      ∧ (cdfLoop hist total bins : List α × Nat).2 = (hist.take bins).sum := by
  set c0 : List α := List.replicate bins 0 with hc0
  have key := foldl_range_inv
    (fun n (st : List α × Nat) =>
      Pref 0 c0 (fun i => (((hist.take (i + 1)).sum : Nat) : α) / (total : α)) n st.1
        ∧ st.2 = (hist.take n).sum)
    (fun (st : List α × Nat) (i : Nat) =>
      (st.1.set i (((st.2 + hist.getD i 0 : Nat) : α) / (total : α)),
        st.2 + hist.getD i 0))
    (c0, 0) bins ⟨Pref.init 0 c0 _, by simp⟩
    (by
      intro i hi st hst
      obtain ⟨h1, h2⟩ := hst
      refine ⟨h1.step (by rw [hc0, List.length_replicate]; exact hi) _ ?_, ?_⟩
      · simp only [h2, sum_take_succ]
      · simp only [h2, sum_take_succ])
  obtain ⟨h1, h2⟩ := key
  refine ⟨?_, h2⟩
  have hfull := h1.eq_of_full (le_of_eq (by rw [hc0, List.length_replicate]))
  rw [hc0, List.length_replicate] at hfull
  exact hfull

/-! ## The remapping loop in closed form -/

theorem remapLoop_eq [FloorRing α] (n : Nat) (Y cdf data : List α)
    (hlen : data.length = n * 3) :
    remapLoop n Y cdf data
      = (List.range (n * 3)).map (fun p =>
          clamp01 (data.getD p 0 * lumaScale cdf (Y.getD (p / 3) 0))) := by
  unfold remapLoop
  have key := foldl_range_inv
    (fun i (a : List α) => Pref 0 data
      (fun p => clamp01 (data.getD p 0 * lumaScale cdf (Y.getD (p / 3) 0))) (i * 3) a)
    (fun (a : List α) (i : Nat) =>
      ((a.set (i * 3 + 0) (clamp01 (a.getD (i * 3 + 0) 0 * lumaScale cdf (Y.getD i 0)))).set
        (i * 3 + 1) (clamp01 (a.getD (i * 3 + 1) 0 * lumaScale cdf (Y.getD i 0)))).set
        (i * 3 + 2) (clamp01 (a.getD (i * 3 + 2) 0 * lumaScale cdf (Y.getD i 0))))
    data n (by simpa using Pref.init 0 data _)
    (by
      intro i hi a ha
      have e0 : (i * 3 + 0) / 3 = i := by omega
      have e1 : (i * 3 + 1) / 3 = i := by omega
      have e2 : (i * 3 + 2) / 3 = i := by omega
      have r0 : a.getD (i * 3 + 0) 0 = data.getD (i * 3 + 0) 0 := by
        rw [ha.2]; simp
      have r1 : a.getD (i * 3 + 1) 0 = data.getD (i * 3 + 1) 0 := by
        rw [ha.2]; simp
      have r2 : a.getD (i * 3 + 2) 0 = data.getD (i * 3 + 2) 0 := by
        rw [ha.2]; simp
      have s0 := @Pref.step _ _ _ _ (i * 3 + 0) _ ha (by omega) _
        (show clamp01 (a.getD (i * 3 + 0) 0 * lumaScale cdf (Y.getD i 0)) = _ by
          simp only [r0, e0])
      have s1 := @Pref.step _ _ _ _ (i * 3 + 1) _ s0 (by omega) _
        (show clamp01 (a.getD (i * 3 + 1) 0 * lumaScale cdf (Y.getD i 0)) = _ by
          simp only [r1, e1])
      have s2 := @Pref.step _ _ _ _ (i * 3 + 2) _ s1 (by omega) _
        (show clamp01 (a.getD (i * 3 + 2) 0 * lumaScale cdf (Y.getD i 0)) = _ by
          simp only [r2, e2])
      have e : i * 3 + 2 + 1 = (i + 1) * 3 := by ring
      rw [← e]
      exact s2)
  have hfull := key.eq_of_full (le_of_eq hlen)
  rw [hlen] at hfull
  exact hfull

theorem equalizeLuminance_data [FloorRing α] (img : Image α) (hwf : WellFormed img) :
    (equalizeLuminance img).data
      = (List.range (img.w * img.h * 3)).map (fun p =>
          clamp01 (img.data.getD p 0
            * lumaScale (equalizeCdf img) (pixelLuma img (p / 3)))) := by
  unfold equalizeLuminance
  simp only
  rw [remapLoop_eq _ _ _ _ hwf]
  apply List.map_congr_left
  intro p hp
  have hp3 : p / 3 < img.w * img.h := by
    have := List.mem_range.1 hp
    omega
  rw [(lumaHistogram_spec img).2.2.2]
  congr 3
  rw [List.getD_eq_getElem _ _ (by simpa using hp3)]
  simp

theorem getD_map_range {γ : Type} (n p : Nat) (V : Nat → γ) (d : γ) (hp : p < n) :
    ((List.range n).map V).getD p d = V p := by
  rw [List.getD_eq_getElem _ _ (by simpa using hp)]
  simp

/-- Sample `p` of the equalised image: the input sample times the scale of its
pixel, clamped. -/
theorem equalizeLuminance_getD [FloorRing α] (img : Image α) (hwf : WellFormed img)
    (p : Nat) (hp : p < img.w * img.h * 3) :
    (equalizeLuminance img).data.getD p 0
      = clamp01 (img.data.getD p 0
          * lumaScale (equalizeCdf img) (pixelLuma img (p / 3))) := by
  rw [equalizeLuminance_data img hwf, getD_map_range _ _ _ _ hp]

/-! ## The cdf array -/

theorem equalizeCdf_eq [FloorRing α] (img : Image α) :
    equalizeCdf img = (List.range 256).map (fun i =>
      ((((lumaHistogram img).1.take (i + 1)).sum : Nat) : α) / ((img.w * img.h : Nat) : α)) :=
  (cdfLoop_spec (lumaHistogram img).1 (img.w * img.h) 256).1

theorem equalizeCdf_getD [FloorRing α] (img : Image α) (i : Nat) (hi : i < 256) :
    (equalizeCdf img).getD i 0
      = ((((lumaHistogram img).1.take (i + 1)).sum : Nat) : α)
          / ((img.w * img.h : Nat) : α) := by
  rw [equalizeCdf_eq, getD_map_range _ _ _ _ hi]

theorem pixels_pos (img : Image α) (hne : NonEmpty img) :
    (0 : α) < ((img.w * img.h : Nat) : α) := by
  have : 0 < img.w * img.h := Nat.mul_pos hne.1 hne.2
  exact_mod_cast this

/-! ## Uniform gray images -/

theorem rgb2y_gray (v : α) : rgb2y v v v = v := by
  unfold rgb2y
  norm_num
  ring

theorem getD_replicate_lt {γ : Type} (n p : Nat) (v d : γ) (hp : p < n) :
    (List.replicate n v).getD p d = v := by
  rw [List.getD_eq_getElem _ _ (by simpa using hp), List.getElem_replicate]

theorem uniformGray_luma (w h : Nat) (v : α) (i : Nat) (hi : i < w * h) :
    pixelLuma (uniformGray w h v) i = v := by
  unfold pixelLuma uniformGray
  simp only
  rw [getD_replicate_lt _ _ _ _ (by omega), getD_replicate_lt _ _ _ _ (by omega),
    getD_replicate_lt _ _ _ _ (by omega), rgb2y_gray]

theorem sum_take_zero (l : List Nat) (m : Nat) (h : ∀ j, j < m → l.getD j 0 = 0) :
    (l.take m).sum = 0 := by
  induction m with
  | zero => simp
  | succ k ih =>
    rw [sum_take_succ, ih (fun j hj => h j (by omega)), h k (by omega)]

theorem uniformGray_hist [FloorRing α] (w h : Nat) (v : α) (b : Nat) :
    (lumaHistogram (uniformGray w h v)).1.getD b 0
      = if b = lumaBin v then w * h else 0 := by
  rw [(lumaHistogram_spec (uniformGray w h v)).2.2.1 b]
  show (List.range (w * h)).countP
      (fun j => decide (lumaBin (pixelLuma (uniformGray w h v) j) = b)) = _
  by_cases hb : b = lumaBin v
  · rw [if_pos hb]
    have : (List.range (w * h)).countP
        (fun j => decide (lumaBin (pixelLuma (uniformGray w h v) j) = b))
          = (List.range (w * h)).length := by
      rw [List.countP_eq_length]
      intro j hj
      rw [uniformGray_luma w h v j (List.mem_range.1 hj), hb]
      simp
    rw [this, List.length_range]
  · rw [if_neg hb, List.countP_eq_zero]
    intro j hj
    rw [uniformGray_luma w h v j (List.mem_range.1 hj)]
    simpa using fun e => hb e.symm

theorem uniformGray_cdf [FloorRing α] (w h : Nat) (v : α) (hw : 0 < w) (hh : 0 < h) :
    (equalizeCdf (uniformGray w h v)).getD (lumaBin v) 0 = 1 := by
  rw [equalizeCdf_getD _ _ (lumaBin_lt v), sum_take_succ, sum_take_zero, uniformGray_hist,
    if_pos rfl, zero_add]
  · exact div_self (ne_of_gt (pixels_pos (uniformGray w h v) ⟨hw, hh⟩))
  · intro j hj
    rw [uniformGray_hist, if_neg (by omega)]

theorem uniformGray_equalized [FloorRing α] (w h : Nat) (v : α) (hw : 0 < w) (hh : 0 < h) :
    (equalizeLuminance (uniformGray w h v)).data
      = List.replicate (w * h * 3) (clamp01 (v * (1 / (if v > 1e-6 then v else 1e-6)))) := by
  have hwf : WellFormed (uniformGray w h v) := by
    unfold WellFormed uniformGray
    simp
  rw [equalizeLuminance_data _ hwf]
  show (List.range (w * h * 3)).map _ = _
  apply List.ext_getElem
  · simp
  · intro p h1 h2
    have hp : p < w * h * 3 := by simpa using h1
    simp only [List.getElem_map, List.getElem_range, List.getElem_replicate]
    rw [uniformGray_luma w h v (p / 3) (by omega)]
    unfold lumaScale
    simp only
    rw [uniformGray_cdf w h v hw hh]
    congr 1
    show (List.replicate (w * h * 3) v).getD p 0 * _ = _
    rw [getD_replicate_lt _ _ _ _ hp]

/-! ## Shapes -/

theorem gaussianBlurRGB_shape (ex : α → α) (src : Image α) (radius : Nat) (sigma : α)
    (hwf : WellFormed src) : SameShape src (gaussianBlurRGB ex src radius sigma) := by
  refine ⟨rfl, rfl, rfl, ?_⟩
  rw [gaussianBlurRGB_data ex src radius sigma hwf, List.length_map, List.length_range]

theorem unsharpMask_shape (ex : α → α) (img : Image α) (sigma : α) (radius : Nat)
    (amount : α) (hwf : WellFormed img) :
    SameShape img (unsharpMask ex img sigma radius amount) := by
  refine ⟨rfl, rfl, rfl, ?_⟩
  rw [unsharpMask_data ex img sigma radius amount hwf, List.length_map, List.length_range]

theorem equalizeLuminance_shape [FloorRing α] (img : Image α) (hwf : WellFormed img) :
    SameShape img (equalizeLuminance img) := by
  refine ⟨rfl, rfl, rfl, ?_⟩
  rw [equalizeLuminance_data img hwf, List.length_map, List.length_range]

theorem SameShape.trans {γ : Type} {a b c : Image γ} (h1 : SameShape a b) (h2 : SameShape b c) :
    SameShape a c := by
  obtain ⟨w1, h1', c1, _⟩ := h1
  obtain ⟨w2, h2', c2, l2⟩ := h2
  refine ⟨w2.trans w1, h2'.trans h1', c2.trans c1, ?_⟩
  rw [l2, w1, h1']

theorem SameShape.wellFormed {γ : Type} {a b : Image γ} (h : SameShape a b) : WellFormed b := by
  obtain ⟨w1, h1, _, l1⟩ := h
  unfold WellFormed
  rw [l1, w1, h1]

/-! ## The equalised pixel -/

theorem equalizeCdf_nonneg [FloorRing α] (img : Image α) (b : Nat) :
    0 ≤ (equalizeCdf img).getD b 0 := by
  by_cases hb : b < 256
  · rw [equalizeCdf_getD img b hb]
    exact div_nonneg (Nat.cast_nonneg _) (Nat.cast_nonneg _)
  · rw [List.getD_eq_default _ _ (by
      rw [equalizeCdf_eq, List.length_map, List.length_range]; omega)]

theorem rgb2y_scale (r g b s : α) : rgb2y (r * s) (g * s) (b * s) = rgb2y r g b * s := by
  unfold rgb2y
  ring

/-! ## The kernel against its specification -/

theorem mem_offsets (radius : Nat) (i : Int) :
    i ∈ offsets radius ↔ -(radius : Int) ≤ i ∧ i ≤ (radius : Int) := by
  unfold offsets
  rw [List.mem_map]
  constructor
  · rintro ⟨j, hj, rfl⟩
    have := List.mem_range.1 hj
    constructor <;> omega
  · rintro ⟨h1, h2⟩
    refine ⟨(i + (radius : Int)).toNat, List.mem_range.2 (by omega), by omega⟩

theorem offsets_nodup (radius : Nat) : (offsets radius).Nodup := by
  unfold offsets
  apply List.Nodup.map _ (List.nodup_range _)
  intro a b h
  simp only at h
  omega

theorem offsets_toFinset (radius : Nat) :
    (offsets radius).toFinset = Finset.Icc (-(radius : Int)) (radius : Int) := by
  ext i
  rw [List.mem_toFinset, mem_offsets, Finset.mem_Icc]

/-- A sum over the loop offsets is the sum over the integer interval
`[-radius, radius]`. -/
theorem sum_offsets (radius : Nat) (f : Int → α) :
    ((offsets radius).map f).sum = ∑ j ∈ Finset.Icc (-(radius : Int)) (radius : Int), f j := by
  rw [← offsets_toFinset, List.sum_toFinset f (offsets_nodup radius)]

theorem rawTap_eq (ex : α → α) (sigma : α) (i : Int) :
    rawTap ex sigma i = ex (-((i : α) ^ 2) / (2 * sigma ^ 2)) := by
  unfold rawTap
  congr 1
  push_cast
  ring

theorem tapSum_eq (ex : α → α) (radius : Nat) (sigma : α) :
    tapSum ex radius sigma
      = ∑ j ∈ Finset.Icc (-(radius : Int)) (radius : Int),
          ex (-((j : α) ^ 2) / (2 * sigma ^ 2)) := by
  unfold tapSum
  rw [sum_offsets]
  exact Finset.sum_congr rfl (fun j _ => rawTap_eq ex sigma j)

theorem kernel_getD (ex : α → α) (radius : Nat) (sigma : α) (j : Nat)
    (hj : j < 2 * radius + 1) :
    (gaussianKernel1D ex radius sigma).getD j 0
      = rawTap ex sigma ((j : Int) - (radius : Int)) / tapSum ex radius sigma := by
  rw [gaussianKernel1D_eq, offsets, List.map_map, getD_map_range _ _ _ _ hj]
  rfl

theorem kernel_getD_offset (ex : α → α) (radius : Nat) (sigma : α) (i : Int)
    (h1 : -(radius : Int) ≤ i) (h2 : i ≤ (radius : Int)) :
    (gaussianKernel1D ex radius sigma).getD (i + (radius : Int)).toNat 0
      = rawTap ex sigma i / tapSum ex radius sigma := by
  rw [kernel_getD ex radius sigma _ (by omega)]
  congr 2
  omega

theorem countP_le_succ {ι : Type} (l : List ι) (f : ι → Nat) (b : Nat) :
    l.countP (fun j => f j ≤ b) + l.countP (fun j => f j = b + 1)
      = l.countP (fun j => f j ≤ b + 1) := by
  induction l with
  | nil => simp
  | cons x xs ih =>
    simp only [List.countP_cons, decide_eq_true_eq]
    split_ifs <;> omega

theorem sum_take_hist [FloorRing α] (img : Image α) (b : Nat) :
    ((lumaHistogram img).1.take (b + 1)).sum
      = (List.range (img.w * img.h)).countP (fun j => lumaBin (pixelLuma img j) ≤ b) := by
  have hspec := (lumaHistogram_spec img).2.2.1
  induction b with
  | zero =>
    rw [sum_take_succ, List.take_zero, List.sum_nil, zero_add, hspec 0]
    apply List.countP_congr
    intro j _
    simp
  | succ n ih =>
    rw [sum_take_succ, ih, hspec (n + 1)]
    exact countP_le_succ _ _ n

/-- The entry `cdf[b]` is the fraction of pixels whose bin is at most `b`. -/
theorem equalizeCdf_count [FloorRing α] (img : Image α) (b : Nat) (hb : b < 256) :
    (equalizeCdf img).getD b 0
      = (((List.range (img.w * img.h)).countP
            (fun j => lumaBin (pixelLuma img j) ≤ b) : Nat) : α)
          / ((img.w * img.h : Nat) : α) := by
  rw [equalizeCdf_getD img b hb, sum_take_hist]

/-- In a one-pixel image the cdf at the pixel's own bin is 1. -/
theorem onePixel_cdf [FloorRing α] (img : Image α) (hw : img.w = 1) (hh : img.h = 1) :
    (equalizeCdf img).getD (lumaBin (pixelLuma img 0)) 0 = 1 := by
  rw [equalizeCdf_count img _ (lumaBin_lt _), hw, hh]
  simp [List.range_succ]

theorem lumaScale_nonneg [FloorRing α] (img : Image α) (y : α) :
    0 ≤ lumaScale (equalizeCdf img) y := by
  unfold lumaScale
  simp only
  apply div_nonneg (equalizeCdf_nonneg img _)
  split_ifs with h
  · exact le_of_lt (lt_trans (by norm_num) h)
  · norm_num

/-! ## Two concrete images for the chroma claim -/

theorem imgRed_luma : pixelLuma imgRed 0 = 1299 / 2000 := by
  norm_num [pixelLuma, imgRed, rgb2y]

theorem imgRed_scale :
    lumaScale (equalizeCdf imgRed) (pixelLuma imgRed 0) = 2000 / 1299 := by
  unfold lumaScale
  simp only
  rw [onePixel_cdf imgRed rfl rfl, imgRed_luma]
  norm_num

theorem imgRed_inRange : InRange imgRed.data := by
  intro v hv
  simp only [imgRed, List.mem_cons, List.mem_singleton, List.not_mem_nil, or_false] at hv
  rcases hv with rfl | rfl | rfl <;> norm_num

theorem imgDim_inRange : InRange imgDim.data := by
  intro v hv
  simp only [imgDim, List.mem_cons, List.mem_singleton, List.not_mem_nil, or_false] at hv
  rcases hv with rfl | rfl | rfl | rfl | rfl | rfl <;> norm_num

theorem imgDim_luma0 : pixelLuma imgDim 0 = 1299 / 10000 := by
  norm_num [pixelLuma, imgDim, rgb2y]

theorem imgDim_luma1 : pixelLuma imgDim 1 = 1 := by
  norm_num [pixelLuma, imgDim, rgb2y]

theorem imgDim_bin0 : lumaBin (pixelLuma imgDim 0) = 33 := by
  rw [imgDim_luma0]
  unfold lumaBin lround clamp01
  norm_num
  rfl

theorem imgDim_bin1 : lumaBin (pixelLuma imgDim 1) = 255 := by
  rw [imgDim_luma1]
  unfold lumaBin lround clamp01
  norm_num
  rfl

theorem imgDim_scale :
    lumaScale (equalizeCdf imgDim) (pixelLuma imgDim 0) = 5000 / 1299 := by
  have hc : (equalizeCdf imgDim).getD 33 0 = 1 / 2 := by
    rw [equalizeCdf_count imgDim 33 (by decide)]
    have hr : List.range (imgDim.w * imgDim.h) = [0, 1] := rfl
    rw [hr]
    simp only [List.countP_cons, List.countP_nil, imgDim_bin0, imgDim_bin1]
    norm_num [imgDim]
  unfold lumaScale
  simp only
  rw [imgDim_bin0, hc, imgDim_luma0]
  norm_num

/-! ## Clamped coordinates -/

theorem clampCoord_bounds (x : Nat) (i : Int) (n : Nat) (hn : 0 < n) :
    0 ≤ clampCoord x i n ∧ clampCoord x i n < (n : Int) := by
  unfold clampCoord
  simp only
  split_ifs <;> constructor <;> omega

theorem index_cast_clamped_row (w x ch : Nat) (c : Int) (hc : 0 ≤ c) :
    ((c * (w : Int) + (x : Int)) * 3 + (ch : Int)).toNat = (c.toNat * w + x) * 3 + ch := by
  have e : c = ((c.toNat : Nat) : Int) := (Int.toNat_of_nonneg hc).symm
  rw [e, index_cast, Int.toNat_natCast]

/-! ## Constant images -/

theorem clampCoord_eq_clampEdge (x : Nat) (i : Int) (n : Nat) (hn : 0 < n) :
    clampCoord x i n = clampEdge ((x : Int) + i) n := by
  unfold clampCoord clampEdge
  simp only
  split_ifs <;> omega

theorem hAcc_sum (src : Image α) (k : List α) (radius : Nat) (y x ch : Nat) :
    hAcc src k radius y x ch
      = ∑ i ∈ Finset.Icc (-(radius : Int)) (radius : Int),
          src.data.getD (((y : Int) * src.w + clampCoord x i src.w) * 3 + ch).toNat 0
            * k.getD (i + (radius : Int)).toNat 0 := by
  unfold hAcc
  rw [foldl_add_eq_sum, zero_add, sum_offsets]

theorem vAcc_sum (src : Image α) (k : List α) (radius : Nat) (tmp : List α) (y x ch : Nat) :
    vAcc src k radius tmp y x ch
      = ∑ j ∈ Finset.Icc (-(radius : Int)) (radius : Int),
          tmp.getD ((clampCoord y j src.h * src.w + (x : Int)) * 3 + ch).toNat 0
            * k.getD (j + (radius : Int)).toNat 0 := by
  unfold vAcc
  rw [foldl_add_eq_sum, zero_add, sum_offsets]

theorem raster_getD {w h x y ch : Nat} (F : Nat → Nat → Nat → α) (hx : x < w) (hy : y < h)
    (hc : ch < 3) :
    ((List.range (w * h * 3)).map (fun q => F (q / 3 / w) (q / 3 % w) (q % 3))).getD
        ((y * w + x) * 3 + ch) 0 = F y x ch := by
  rw [getD_map_range _ _ _ _ (sample_lt hx hy hc), sample_row hx hc, sample_col hx hc,
    sample_chan hc]

/-- Sample `(x, y, ch)` of the blurred image as the vertical sum of horizontal
sums. -/
theorem blur_getD (ex : α → α) (src : Image α) (radius : Nat) (sigma : α)
    (hwf : WellFormed src) (y x ch : Nat) (hy : y < src.h) (hx : x < src.w) (hc : ch < 3) :
    (gaussianBlurRGB ex src radius sigma).data.getD ((y * src.w + x) * 3 + ch) 0
      = ∑ j ∈ Finset.Icc (-(radius : Int)) (radius : Int),
          (∑ i ∈ Finset.Icc (-(radius : Int)) (radius : Int),
            src.data.getD
                ((clampCoord y j src.h * src.w + clampCoord x i src.w) * 3 + ch).toNat 0
              * (gaussianKernel1D ex radius sigma).getD (i + (radius : Int)).toNat 0)
            * (gaussianKernel1D ex radius sigma).getD (j + (radius : Int)).toNat 0 := by
  rw [gaussianBlurRGB_data ex src radius sigma hwf,
    raster_getD (vAcc src (gaussianKernel1D ex radius sigma) radius _) hx hy hc, vAcc_sum]
  apply Finset.sum_congr rfl
  intro j _
  obtain ⟨c0, c1⟩ := clampCoord_bounds y j src.h (by omega)
  congr 1
  rw [index_cast_clamped_row _ _ _ _ c0,
    raster_getD (hAcc src (gaussianKernel1D ex radius sigma) radius) hx (by omega) hc, hAcc_sum]
  apply Finset.sum_congr rfl
  intro i _
  rw [Int.toNat_of_nonneg c0]

theorem gauss2DWeight_eq (ex : α → α) (hmul : ∀ a b, ex (a + b) = ex a * ex b)
    (radius : Nat) (sigma : α) (i j : Int) :
    gauss2DWeight ex radius sigma i j
      = rawTap ex sigma i / tapSum ex radius sigma
          * (rawTap ex sigma j / tapSum ex radius sigma) := by
  have hE : ∀ a b : Int, ex (-((a : α) ^ 2 + (b : α) ^ 2) / (2 * sigma ^ 2))
      = rawTap ex sigma a * rawTap ex sigma b := by
    intro a b
    rw [rawTap_eq, rawTap_eq, ← hmul]
    congr 1
    ring
  unfold gauss2DWeight
  rw [hE i j, ← mul_div_mul_comm]
  congr 1
  simp only [hE]
  rw [tapSum_eq, Finset.sum_mul_sum]
  apply Finset.sum_congr rfl
  intro a _
  apply Finset.sum_congr rfl
  intro b _
  rw [rawTap_eq, rawTap_eq]

/-- The blurred sample is the spec's double sum, for a multiplicative `ex`. -/
theorem blur_eq_gaussian2D (ex : α → α) (hmul : ∀ a b, ex (a + b) = ex a * ex b)
    (src : Image α) (radius : Nat) (sigma : α) (hwf : WellFormed src) (y x ch : Nat)
    (hy : y < src.h) (hx : x < src.w) (hc : ch < 3) :
    (gaussianBlurRGB ex src radius sigma).data.getD ((y * src.w + x) * 3 + ch) 0
      = gaussian2D ex src radius sigma y x ch := by
  rw [blur_getD ex src radius sigma hwf y x ch hy hx hc]
  unfold gaussian2D
  rw [Finset.sum_comm]
  apply Finset.sum_congr rfl
  intro j hj
  rw [Finset.sum_mul]
  apply Finset.sum_congr rfl
  intro i hi
  obtain ⟨i1, i2⟩ := Finset.mem_Icc.1 hi
  obtain ⟨j1, j2⟩ := Finset.mem_Icc.1 hj
  rw [gauss2DWeight_eq ex hmul, kernel_getD_offset ex radius sigma i i1 i2,
    kernel_getD_offset ex radius sigma j j1 j2,
    clampCoord_eq_clampEdge y j src.h (by omega), clampCoord_eq_clampEdge x i src.w (by omega)]
  ring

/-- The same identity for real images and the real exponential. -/
theorem blur_eq_gaussian2D_real (src : Image ℝ) (radius : Nat) (sigma : ℝ)
    (hwf : WellFormed src) (y x ch : Nat) (hy : y < src.h) (hx : x < src.w) (hc : ch < 3) :
    (gaussianBlurRGB Real.exp src radius sigma).data.getD ((y * src.w + x) * 3 + ch) 0
      = gaussian2D Real.exp src radius sigma y x ch :=
  blur_eq_gaussian2D Real.exp Real.exp_add src radius sigma hwf y x ch hy hx hc

/-! ## Checked accesses succeed -/

section Checked
variable {β : Type} {σ : Type} {ι : Type}

end Checked

theorem img1x1_inRange : InRange img1x1.data := by
  intro v hv
  simp only [img1x1, List.mem_cons, List.mem_singleton, List.not_mem_nil, or_false] at hv
  rcases hv with rfl | rfl | rfl <;> norm_num

/-! ## Claims -/

/-- C7: for a non-empty well-formed image the 256-entry `cdf` array built inside
`equalizeLuminance` is non-decreasing, its entry `i` is the sum of
`hist[0..i]` divided by `w*h`, and its last entry is 1. -/
theorem equalizeCdf_monotone [FloorRing α] (img : Image α) (_hwf : WellFormed img)
    (hne : NonEmpty img) :
    (equalizeCdf img).length = 256
      ∧ (∀ i, i < 255 → (equalizeCdf img).getD i 0 ≤ (equalizeCdf img).getD (i + 1) 0)
      ∧ (∀ i, i < 256 → (equalizeCdf img).getD i 0
          = ((((lumaHistogram img).1.take (i + 1)).sum : Nat) : α)
              / ((img.w * img.h : Nat) : α))
      ∧ (equalizeCdf img).getD 255 0 = 1 := by
  have hpos : (0 : α) < ((img.w * img.h : Nat) : α) := pixels_pos img hne
  refine ⟨?_, ?_, fun i hi => equalizeCdf_getD img i hi, ?_⟩
  · rw [equalizeCdf_eq, List.length_map, List.length_range]
  · intro i hi
    rw [equalizeCdf_getD img i (by omega), equalizeCdf_getD img (i + 1) (by omega)]
    apply div_le_div_of_nonneg_right _ (le_of_lt hpos)
    rw [sum_take_succ _ (i + 1)]
    push_cast
    have hnn : (0 : α) ≤ (((lumaHistogram img).1.getD (i + 1) 0 : Nat) : α) :=
      Nat.cast_nonneg _
    linarith
  · obtain ⟨h1, h2, _, _⟩ := lumaHistogram_spec img
    rw [equalizeCdf_getD img 255 (by omega), List.take_of_length_le (by rw [h1]), h2]
    exact div_self (ne_of_gt hpos)

theorem equalizeCdf_monotone_witness :
    WellFormed img2x1 ∧ NonEmpty img2x1
      ∧ ((equalizeCdf img2x1).length = 256
        ∧ (∀ i, i < 255 → (equalizeCdf img2x1).getD i 0 ≤ (equalizeCdf img2x1).getD (i + 1) 0)
        ∧ (∀ i, i < 256 → (equalizeCdf img2x1).getD i 0
            = ((((lumaHistogram img2x1).1.take (i + 1)).sum : Nat) : ℚ)
                / ((img2x1.w * img2x1.h : Nat) : ℚ))
        ∧ (equalizeCdf img2x1).getD 255 0 = 1) :=
  ⟨rfl, ⟨by decide, by decide⟩, equalizeCdf_monotone img2x1 rfl ⟨by decide, by decide⟩⟩

/-- C10: for a non-empty well-formed image, every pixel with `R = G = B` still has
`R = G = B` after `equalizeLuminance`. -/
theorem equalizeLuminance_gray [FloorRing α] (img : Image α) (hwf : WellFormed img)
    (_hne : NonEmpty img) (i : Nat) (hi : i < img.w * img.h)
    (hrg : img.data.getD (i * 3 + 0) 0 = img.data.getD (i * 3 + 1) 0)
    (hgb : img.data.getD (i * 3 + 1) 0 = img.data.getD (i * 3 + 2) 0) :
    (equalizeLuminance img).data.getD (i * 3 + 0) 0
        = (equalizeLuminance img).data.getD (i * 3 + 1) 0
      ∧ (equalizeLuminance img).data.getD (i * 3 + 1) 0
        = (equalizeLuminance img).data.getD (i * 3 + 2) 0 := by
  have e0 : (i * 3 + 0) / 3 = i := by omega
  have e1 : (i * 3 + 1) / 3 = i := by omega
  have e2 : (i * 3 + 2) / 3 = i := by omega
  rw [equalizeLuminance_getD img hwf (i * 3 + 0) (by omega),
    equalizeLuminance_getD img hwf (i * 3 + 1) (by omega),
    equalizeLuminance_getD img hwf (i * 3 + 2) (by omega), e0, e1, e2, hrg, hgb]
  exact ⟨rfl, rfl⟩

theorem equalizeLuminance_gray_witness :
    WellFormed imgGray ∧ NonEmpty imgGray ∧ 0 < imgGray.w * imgGray.h
      ∧ imgGray.data.getD (0 * 3 + 0) 0 = imgGray.data.getD (0 * 3 + 1) 0
      ∧ imgGray.data.getD (0 * 3 + 1) 0 = imgGray.data.getD (0 * 3 + 2) 0
      ∧ ((equalizeLuminance imgGray).data.getD (0 * 3 + 0) 0
            = (equalizeLuminance imgGray).data.getD (0 * 3 + 1) 0
          ∧ (equalizeLuminance imgGray).data.getD (0 * 3 + 1) 0
            = (equalizeLuminance imgGray).data.getD (0 * 3 + 2) 0) :=
  ⟨rfl, ⟨by decide, by decide⟩, by decide, rfl, rfl,
    equalizeLuminance_gray imgGray rfl ⟨by decide, by decide⟩ 0 (by decide) rfl rfl⟩

/-- C8: for the 4x4 image whose 16 pixels are all `(0.2, 0.2, 0.2)` the histogram
of `equalizeLuminance` has exactly one non-zero bin (bin 51, holding all 16
pixels), the cdf at that bin is 1, and every output sample is `1.0`. -/
theorem flat4x4_equalized :
    (lumaHistogram flat4x4).1.length = 256
      ∧ (∀ b, (lumaHistogram flat4x4).1.getD b 0 = if b = 51 then 16 else 0)
      ∧ (equalizeCdf flat4x4).getD 51 0 = 1
      ∧ (equalizeLuminance flat4x4).data = List.replicate 48 1 := by
  have hbin : lumaBin (0.2 : ℚ) = 51 := by
    unfold lumaBin lround clamp01
    norm_num
    rfl
  have hval : clamp01 ((0.2 : ℚ) * (1 / (if (0.2 : ℚ) > 1e-6 then 0.2 else 1e-6))) = 1 := by
    unfold clamp01
    norm_num
  refine ⟨(lumaHistogram_spec flat4x4).1, ?_, ?_, ?_⟩
  · intro b
    have := uniformGray_hist 4 4 (0.2 : ℚ) b
    rw [hbin] at this
    exact this
  · have := uniformGray_cdf 4 4 (0.2 : ℚ) (by decide) (by decide)
    rw [hbin] at this
    exact this
  · have := uniformGray_equalized 4 4 (0.2 : ℚ) (by decide) (by decide)
    rw [hval] at this
    exact this

/-- C9, as stated, fails: the 2x2 image of uniform gray `0.5` is not left
unchanged by `equalizeLuminance`. -/
theorem gray2x2_not_fixed :
    ¬ (∀ v ∈ (equalizeLuminance gray2x2).data, v = (0.5 : ℚ)) := by
  have hval : clamp01 ((0.5 : ℚ) * (1 / (if (0.5 : ℚ) > 1e-6 then 0.5 else 1e-6))) = 1 := by
    unfold clamp01
    norm_num
  have hdata := uniformGray_equalized 2 2 (0.5 : ℚ) (by decide) (by decide)
  rw [hval] at hdata
  intro h
  have h1 : (1 : ℚ) ∈ (equalizeLuminance gray2x2).data := by
    show (1 : ℚ) ∈ (equalizeLuminance (uniformGray 2 2 (0.5 : ℚ))).data
    rw [hdata]
    exact List.mem_replicate.2 ⟨by decide, rfl⟩
  have h2 := h 1 h1
  norm_num at h2

/-- C9, amended: the 2x2 image of uniform gray `0.5` equalizes to uniform `1.0`:
its single occupied bin is 128, the cdf there is 1, the scale is `1 / 0.5 = 2`,
and every sample becomes `1.0` (still `R = G = B`, same `w` and `h`). -/
theorem gray2x2_equalized :
    (equalizeLuminance gray2x2).data = List.replicate 12 1
      ∧ (equalizeLuminance gray2x2).w = 2 ∧ (equalizeLuminance gray2x2).h = 2
      ∧ (∀ b, (lumaHistogram gray2x2).1.getD b 0 = if b = 128 then 4 else 0)
      ∧ (equalizeCdf gray2x2).getD 128 0 = 1 := by
  have hbin : lumaBin (0.5 : ℚ) = 128 := by
    unfold lumaBin lround clamp01
    norm_num
    rfl
  have hval : clamp01 ((0.5 : ℚ) * (1 / (if (0.5 : ℚ) > 1e-6 then 0.5 else 1e-6))) = 1 := by
    unfold clamp01
    norm_num
  refine ⟨?_, rfl, rfl, ?_, ?_⟩
  · have := uniformGray_equalized 2 2 (0.5 : ℚ) (by decide) (by decide)
    rw [hval] at this
    exact this
  · intro b
    have := uniformGray_hist 2 2 (0.5 : ℚ) b
    rw [hbin] at this
    exact this
  · have := uniformGray_cdf 2 2 (0.5 : ℚ) (by decide) (by decide)
    rw [hbin] at this
    exact this

/-- C11, as stated, fails: on the one-pixel image `(1, 0.5, 0.5)`, which is
well-formed, non-empty and in range, the red channel is clamped to 1 while green
becomes `1000/1299`, so `R'*G = 1/2` differs from `G'*R = 1000/1299`. -/
theorem imgRed_chroma_broken :
    WellFormed imgRed ∧ NonEmpty imgRed ∧ InRange imgRed.data
      ∧ (equalizeLuminance imgRed).data.getD 0 0 = 1
      ∧ (equalizeLuminance imgRed).data.getD 1 0 = 1000 / 1299
      ∧ ¬ ((equalizeLuminance imgRed).data.getD 0 0 * imgRed.data.getD 1 0
            = (equalizeLuminance imgRed).data.getD 1 0 * imgRed.data.getD 0 0) := by
  have e1 : (1 : Nat) / 3 = 0 := rfl
  have h0 : (equalizeLuminance imgRed).data.getD 0 0 = 1 := by
    rw [equalizeLuminance_getD imgRed rfl 0 (by decide), Nat.zero_div, imgRed_scale]
    unfold clamp01
    norm_num [imgRed]
  have h1 : (equalizeLuminance imgRed).data.getD 1 0 = 1000 / 1299 := by
    rw [equalizeLuminance_getD imgRed rfl 1 (by decide), e1, imgRed_scale]
    unfold clamp01
    norm_num [imgRed]
  refine ⟨rfl, ⟨by decide, by decide⟩, imgRed_inRange, h0, h1, ?_⟩
  rw [h0, h1]
  norm_num [imgRed]

/-- C11, amended: for a non-empty well-formed image with samples in `[0,1]` and a
pixel none of whose channels times the pixel's scale `s = cdf[bin]/max(Y, eps)`
exceeds 1 (no channel is clamped), `equalizeLuminance` preserves the chroma
ratios: `s ≥ 0`, the output triple is `s·(R, G, B)`, and `R'*G = G'*R`,
`R'*B = B'*R`, `G'*B = B'*G`. -/
theorem equalizeLuminance_chroma [FloorRing α] (img : Image α) (hwf : WellFormed img)
    (_hne : NonEmpty img) (hin : InRange img.data) (i : Nat) (hi : i < img.w * img.h)
    (hR : img.data.getD (i * 3 + 0) 0
      * lumaScale (equalizeCdf img) (pixelLuma img i) ≤ 1)
    (hG : img.data.getD (i * 3 + 1) 0
      * lumaScale (equalizeCdf img) (pixelLuma img i) ≤ 1)
    (hB : img.data.getD (i * 3 + 2) 0
      * lumaScale (equalizeCdf img) (pixelLuma img i) ≤ 1) :
    0 ≤ lumaScale (equalizeCdf img) (pixelLuma img i)
      ∧ (equalizeLuminance img).data.getD (i * 3 + 0) 0
          = img.data.getD (i * 3 + 0) 0 * lumaScale (equalizeCdf img) (pixelLuma img i)
      ∧ (equalizeLuminance img).data.getD (i * 3 + 1) 0
          = img.data.getD (i * 3 + 1) 0 * lumaScale (equalizeCdf img) (pixelLuma img i)
      ∧ (equalizeLuminance img).data.getD (i * 3 + 2) 0
          = img.data.getD (i * 3 + 2) 0 * lumaScale (equalizeCdf img) (pixelLuma img i)
      ∧ (equalizeLuminance img).data.getD (i * 3 + 0) 0 * img.data.getD (i * 3 + 1) 0
          = (equalizeLuminance img).data.getD (i * 3 + 1) 0 * img.data.getD (i * 3 + 0) 0
      ∧ (equalizeLuminance img).data.getD (i * 3 + 0) 0 * img.data.getD (i * 3 + 2) 0
          = (equalizeLuminance img).data.getD (i * 3 + 2) 0 * img.data.getD (i * 3 + 0) 0
      ∧ (equalizeLuminance img).data.getD (i * 3 + 1) 0 * img.data.getD (i * 3 + 2) 0
          = (equalizeLuminance img).data.getD (i * 3 + 2) 0 * img.data.getD (i * 3 + 1) 0 := by
  have e0 : (i * 3 + 0) / 3 = i := by omega
  have e1 : (i * 3 + 1) / 3 = i := by omega
  have e2 : (i * 3 + 2) / 3 = i := by omega
  have hs := lumaScale_nonneg img (pixelLuma img i)
  have h0 : (equalizeLuminance img).data.getD (i * 3 + 0) 0
      = img.data.getD (i * 3 + 0) 0 * lumaScale (equalizeCdf img) (pixelLuma img i) := by
    rw [equalizeLuminance_getD img hwf (i * 3 + 0) (by omega), e0,
      clamp01_id (mul_nonneg (getD_inRange _ hin _).1 hs) hR]
  have h1 : (equalizeLuminance img).data.getD (i * 3 + 1) 0
      = img.data.getD (i * 3 + 1) 0 * lumaScale (equalizeCdf img) (pixelLuma img i) := by
    rw [equalizeLuminance_getD img hwf (i * 3 + 1) (by omega), e1,
      clamp01_id (mul_nonneg (getD_inRange _ hin _).1 hs) hG]
  have h2 : (equalizeLuminance img).data.getD (i * 3 + 2) 0
      = img.data.getD (i * 3 + 2) 0 * lumaScale (equalizeCdf img) (pixelLuma img i) := by
    rw [equalizeLuminance_getD img hwf (i * 3 + 2) (by omega), e2,
      clamp01_id (mul_nonneg (getD_inRange _ hin _).1 hs) hB]
  refine ⟨hs, h0, h1, h2, ?_, ?_, ?_⟩
  · rw [h0, h1]; ring
  · rw [h0, h2]; ring
  · rw [h1, h2]; ring

theorem equalizeLuminance_chroma_witness :
    WellFormed imgDim ∧ NonEmpty imgDim ∧ InRange imgDim.data ∧ 0 < imgDim.w * imgDim.h
      ∧ imgDim.data.getD (0 * 3 + 0) 0
          * lumaScale (equalizeCdf imgDim) (pixelLuma imgDim 0) ≤ 1
      ∧ imgDim.data.getD (0 * 3 + 1) 0
          * lumaScale (equalizeCdf imgDim) (pixelLuma imgDim 0) ≤ 1
      ∧ imgDim.data.getD (0 * 3 + 2) 0
          * lumaScale (equalizeCdf imgDim) (pixelLuma imgDim 0) ≤ 1
      ∧ (equalizeLuminance imgDim).data.getD (0 * 3 + 0) 0 * imgDim.data.getD (0 * 3 + 1) 0
          = (equalizeLuminance imgDim).data.getD (0 * 3 + 1) 0
              * imgDim.data.getD (0 * 3 + 0) 0 := by
  have hR : imgDim.data.getD (0 * 3 + 0) 0
      * lumaScale (equalizeCdf imgDim) (pixelLuma imgDim 0) ≤ 1 := by
    rw [imgDim_scale]; norm_num [imgDim]
  have hG : imgDim.data.getD (0 * 3 + 1) 0
      * lumaScale (equalizeCdf imgDim) (pixelLuma imgDim 0) ≤ 1 := by
    rw [imgDim_scale]; norm_num [imgDim]
  have hB : imgDim.data.getD (0 * 3 + 2) 0
      * lumaScale (equalizeCdf imgDim) (pixelLuma imgDim 0) ≤ 1 := by
    rw [imgDim_scale]; norm_num [imgDim]
  exact ⟨rfl, ⟨by decide, by decide⟩, imgDim_inRange, by decide, hR, hG, hB,
    (equalizeLuminance_chroma imgDim rfl ⟨by decide, by decide⟩ imgDim_inRange 0
      (by decide) hR hG hB).2.2.2.2.1⟩

/-- C13: after `unsharpMask` on a well-formed image, every sample `i` equals
`clamp01(orig[i] + amount * (orig[i] - blurred[i]))`, where `orig` is the image
before the call and `blurred` the result of `gaussianBlurRGB(orig, radius, sigma)`;
the value depends only on the sample's own original and blurred value. -/
theorem unsharpMask_formula (ex : α → α) (img : Image α) (sigma : α) (radius : Nat)
    (amount : α) (hwf : WellFormed img) (_hs : 0 < sigma) (i : Nat)
    (hi : i < img.w * img.h * 3) :
    (unsharpMask ex img sigma radius amount).data.getD i 0
      = clamp01 (img.data.getD i 0 + amount
          * (img.data.getD i 0 - (gaussianBlurRGB ex img radius sigma).data.getD i 0)) := by
  rw [unsharpMask_data ex img sigma radius amount hwf, getD_map_range _ _ _ _ hi]

theorem unsharpMask_formula_witness :
    WellFormed img2x1 ∧ (0 : ℚ) < 1 ∧ 4 < img2x1.w * img2x1.h * 3
      ∧ (unsharpMask exQ img2x1 1 2 3).data.getD 4 0
        = clamp01 (img2x1.data.getD 4 0 + 3
            * (img2x1.data.getD 4 0 - (gaussianBlurRGB exQ img2x1 2 1).data.getD 4 0)) :=
  ⟨rfl, by norm_num, by decide,
    unsharpMask_formula exQ img2x1 1 2 3 rfl (by norm_num) 4 (by decide)⟩

/-- C15: if the input satisfies `data.length = w*h*3`, then the destination of
`gaussianBlurRGB`, the image after `unsharpMask`, the image after
`equalizeLuminance` and the result of `enhanceFace` all have the input's `w`, `h`
and `c` and a buffer of `w*h*3` samples; the call of `gaussianBlurRGB` on the
frame `(src, dst)` leaves `src` as it was, whatever `dst` held before. -/
theorem shape_preserved [FloorRing α] (ex : α → α) (img : Image α) (sigma : α)
    (radius : Nat) (amount : α) (hwf : WellFormed img) :
    SameShape img (gaussianBlurRGB ex img radius sigma)
      ∧ SameShape img (unsharpMask ex img sigma radius amount)
      ∧ SameShape img (equalizeLuminance img)
      ∧ (∀ d0 : Image α, (gaussianBlurRGBRun ex ⟨img, d0⟩ radius sigma).src = img
          ∧ (gaussianBlurRGBRun ex ⟨img, d0⟩ radius sigma).dst
              = gaussianBlurRGB ex img radius sigma)
      ∧ SameShape img (enhanceFace ex img) := by
  refine ⟨gaussianBlurRGB_shape ex img radius sigma hwf,
    unsharpMask_shape ex img sigma radius amount hwf, equalizeLuminance_shape img hwf,
    fun _ => ⟨rfl, rfl⟩, ?_⟩
  have s1 := unsharpMask_shape ex img 1.3 2 1.1 hwf
  have s2 := equalizeLuminance_shape _ s1.wellFormed
  have s3 := unsharpMask_shape ex _ 0.9 1 0.4 (s1.trans s2).wellFormed
  exact (s1.trans s2).trans s3

theorem shape_preserved_witness :
    WellFormed img2x1
      ∧ (SameShape img2x1 (gaussianBlurRGB exQ img2x1 2 1)
        ∧ SameShape img2x1 (unsharpMask exQ img2x1 1 2 3)
        ∧ SameShape img2x1 (equalizeLuminance img2x1)
        ∧ (∀ d0 : Image ℚ, (gaussianBlurRGBRun exQ ⟨img2x1, d0⟩ 2 1).src = img2x1
            ∧ (gaussianBlurRGBRun exQ ⟨img2x1, d0⟩ 2 1).dst = gaussianBlurRGB exQ img2x1 2 1)
        ∧ SameShape img2x1 (enhanceFace exQ img2x1)) :=
  ⟨rfl, shape_preserved exQ img2x1 1 2 3 rfl⟩

/-- C17: for a non-empty well-formed image with samples in `[0,1]` and a pixel
whose luma `Y` exceeds `eps = 1e-6` and none of whose channels times
`cdf[bin]/Y` exceeds 1, the luma of the pixel after `equalizeLuminance` equals
`cdf[bin]` with `bin = round(clamp01(Y)*255)`. -/
theorem equalizeLuminance_luma [FloorRing α] (img : Image α) (hwf : WellFormed img)
    (_hne : NonEmpty img) (hin : InRange img.data) (i : Nat) (hi : i < img.w * img.h)
    (hY : pixelLuma img i > 1e-6)
    (hR : img.data.getD (i * 3 + 0) 0
      * ((equalizeCdf img).getD (lumaBin (pixelLuma img i)) 0 / pixelLuma img i) ≤ 1)
    (hG : img.data.getD (i * 3 + 1) 0
      * ((equalizeCdf img).getD (lumaBin (pixelLuma img i)) 0 / pixelLuma img i) ≤ 1)
    (hB : img.data.getD (i * 3 + 2) 0
      * ((equalizeCdf img).getD (lumaBin (pixelLuma img i)) 0 / pixelLuma img i) ≤ 1) :
    pixelLuma (equalizeLuminance img) i
      = (equalizeCdf img).getD (lumaBin (pixelLuma img i)) 0 := by
  have e0 : (i * 3 + 0) / 3 = i := by omega
  have e1 : (i * 3 + 1) / 3 = i := by omega
  have e2 : (i * 3 + 2) / 3 = i := by omega
  have hYpos : 0 < pixelLuma img i := lt_trans (by norm_num) hY
  have hs : lumaScale (equalizeCdf img) (pixelLuma img i)
      = (equalizeCdf img).getD (lumaBin (pixelLuma img i)) 0 / pixelLuma img i := by
    unfold lumaScale
    simp only
    rw [if_pos hY]
  have hs0 : 0 ≤ (equalizeCdf img).getD (lumaBin (pixelLuma img i)) 0 / pixelLuma img i :=
    div_nonneg (equalizeCdf_nonneg img _) (le_of_lt hYpos)
  unfold pixelLuma
  rw [equalizeLuminance_getD img hwf (i * 3 + 0) (by omega),
    equalizeLuminance_getD img hwf (i * 3 + 1) (by omega),
    equalizeLuminance_getD img hwf (i * 3 + 2) (by omega), e0, e1, e2, hs,
    clamp01_id (mul_nonneg (getD_inRange _ hin _).1 hs0) hR,
    clamp01_id (mul_nonneg (getD_inRange _ hin _).1 hs0) hG,
    clamp01_id (mul_nonneg (getD_inRange _ hin _).1 hs0) hB, rgb2y_scale]
  exact mul_div_cancel₀ _ (ne_of_gt hYpos)

theorem equalizeLuminance_luma_witness :
    WellFormed gray2x2 ∧ NonEmpty gray2x2 ∧ InRange gray2x2.data ∧ 0 < gray2x2.w * gray2x2.h
      ∧ pixelLuma gray2x2 0 > 1e-6
      ∧ gray2x2.data.getD (0 * 3 + 0) 0
          * ((equalizeCdf gray2x2).getD (lumaBin (pixelLuma gray2x2 0)) 0
              / pixelLuma gray2x2 0) ≤ 1
      ∧ pixelLuma (equalizeLuminance gray2x2) 0
          = (equalizeCdf gray2x2).getD (lumaBin (pixelLuma gray2x2 0)) 0 := by
  have hwf : WellFormed gray2x2 := rfl
  have hne : NonEmpty gray2x2 := ⟨by decide, by decide⟩
  have hin : InRange gray2x2.data := by
    intro v hv
    have hv2 : v = 0.5 := List.eq_of_mem_replicate hv
    rw [hv2]
    norm_num
  have hl : pixelLuma gray2x2 0 = 0.5 := uniformGray_luma 2 2 (0.5 : ℚ) 0 (by decide)
  have hc : (equalizeCdf gray2x2).getD (lumaBin (0.5 : ℚ)) 0 = 1 :=
    uniformGray_cdf 2 2 (0.5 : ℚ) (by decide) (by decide)
  have hY : pixelLuma gray2x2 0 > 1e-6 := by
    rw [hl]
    norm_num
  have hch : ∀ p, p < 12 → gray2x2.data.getD p 0
      * ((equalizeCdf gray2x2).getD (lumaBin (pixelLuma gray2x2 0)) 0
          / pixelLuma gray2x2 0) ≤ 1 := by
    intro p hp
    have hd : gray2x2.data.getD p 0 = 0.5 := getD_replicate_lt 12 p (0.5 : ℚ) 0 hp
    rw [hl, hc, hd]
    norm_num
  exact ⟨hwf, hne, hin, by decide, hY, hch 0 (by decide),
    equalizeLuminance_luma gray2x2 hwf hne hin 0 (by decide) hY (hch 0 (by decide))
      (hch 1 (by decide)) (hch 2 (by decide))⟩

/-- C20: for a non-empty well-formed image, a pixel that is exactly black is
still exactly `(0, 0, 0)` after `equalizeLuminance`, whatever the rest of the
image contains. -/
theorem equalizeLuminance_black [FloorRing α] (img : Image α) (hwf : WellFormed img)
    (_hne : NonEmpty img) (i : Nat) (hi : i < img.w * img.h)
    (hr : img.data.getD (i * 3 + 0) 0 = 0) (hg : img.data.getD (i * 3 + 1) 0 = 0)
    (hb : img.data.getD (i * 3 + 2) 0 = 0) :
    (equalizeLuminance img).data.getD (i * 3 + 0) 0 = 0
      ∧ (equalizeLuminance img).data.getD (i * 3 + 1) 0 = 0
      ∧ (equalizeLuminance img).data.getD (i * 3 + 2) 0 = 0 := by
  have hz : clamp01 (0 : α) = 0 := clamp01_id (le_refl 0) zero_le_one
  rw [equalizeLuminance_getD img hwf (i * 3 + 0) (by omega),
    equalizeLuminance_getD img hwf (i * 3 + 1) (by omega),
    equalizeLuminance_getD img hwf (i * 3 + 2) (by omega), hr, hg, hb]
  simp only [zero_mul, hz, and_self]

theorem equalizeLuminance_black_witness :
    WellFormed imgBlack ∧ NonEmpty imgBlack ∧ 0 < imgBlack.w * imgBlack.h
      ∧ imgBlack.data.getD (0 * 3 + 0) 0 = 0 ∧ imgBlack.data.getD (0 * 3 + 1) 0 = 0
      ∧ imgBlack.data.getD (0 * 3 + 2) 0 = 0
      ∧ ((equalizeLuminance imgBlack).data.getD (0 * 3 + 0) 0 = 0
        ∧ (equalizeLuminance imgBlack).data.getD (0 * 3 + 1) 0 = 0
        ∧ (equalizeLuminance imgBlack).data.getD (0 * 3 + 2) 0 = 0) :=
  ⟨rfl, ⟨by decide, by decide⟩, by decide, rfl, rfl, rfl,
    equalizeLuminance_black imgBlack rfl ⟨by decide, by decide⟩ 0 (by decide) rfl rfl rfl⟩

end ImageEnhancer
